import Mathlib

/-!
Shallow embedding of the snake-crossterm game core (src/main.rs): the
geometry module (SegmentType::from_next, from_dir), the shared GameState,
the input handler (handle_input) and one iteration of the simulation loop
in main (modelled as tick). Terminal I/O and rendering are projections of
the state and are not modelled; the two threads are modelled as a
sequential interleaving of atomic input events and simulation ticks.
Rust panics (unwrap on checked arithmetic, indexing an empty deque, the
panic arms of from_next, gen_range on an empty range) are modelled as
Option none / the stuck outcome.
-/

inductive Direction where
  | North
  | South
  | East
  | West
deriving DecidableEq, Fintype

/-- The 180-degree reverse of a direction (not in the source as a function;
used to state the reversal-guard properties). -/
def Direction.opposite : Direction → Direction
  | .North => .South
  | .South => .North
  | .East => .West
  | .West => .East

inductive SegmentType where
  | NorthSouth
  | NorthEast
  | NorthWest
  | SouthEast
  | SouthWest
  | EastWest
deriving DecidableEq, Fintype

/-- SegmentType::from_next in src/main.rs. The Rust panic arms (exact
opposite direction pairs) are modelled as none. -/
def SegmentType.from_next : Direction → Direction → Option SegmentType
  | .North, .North => some .NorthSouth
  | .North, .South => none
  | .North, .East => some .SouthEast
  | .North, .West => some .SouthWest
  | .South, .North => none
  | .South, .South => some .NorthSouth
  | .South, .East => some .NorthEast
  | .South, .West => some .NorthWest
  | .East, .North => some .NorthWest
  | .East, .South => some .SouthWest
  | .East, .East => some .EastWest
  | .East, .West => none
  | .West, .North => some .NorthEast
  | .West, .South => some .SouthEast
  | .West, .East => none
  | .West, .West => some .EastWest

/-- SegmentType::from_dir in src/main.rs. -/
def SegmentType.from_dir : Direction → SegmentType
  | .North | .South => .NorthSouth
  | .East | .West => .EastWest

inductive SnakeStyle where
  | CurvedLine
  | SharpLine
  | Block
  | Ascii
deriving DecidableEq

/-- SnakeStyle::next in src/main.rs (cyclic). -/
def SnakeStyle.next : SnakeStyle → SnakeStyle
  | .CurvedLine => .SharpLine
  | .SharpLine => .Block
  | .Block => .Ascii
  | .Ascii => .CurvedLine

inductive AppleStyle where
  | Filled
  | Outline
  | Block
  | Ascii
deriving DecidableEq

/-- AppleStyle::next in src/main.rs (cyclic). -/
def AppleStyle.next : AppleStyle → AppleStyle
  | .Filled => .Outline
  | .Outline => .Block
  | .Block => .Ascii
  | .Ascii => .Filled

/-- struct Segment(u16, u16, SegmentType, Direction): one occupied cell
(x, y), its renderable shape, and the direction the snake was moving when
this cell became the head. Coordinates are u16 in the source; they are
modelled as Nat (the source never overflows a coordinate that lies on the
board, and the bounds checks are explicit below). -/
structure Segment where
  x : Nat
  y : Nat
  shape : SegmentType
  facing : Direction
deriving DecidableEq

/-- The (x, y) cell of a segment. -/
def Segment.pos (t : Segment) : Nat × Nat := (t.x, t.y)

/-- struct GameState in src/main.rs. The VecDeque is a list, oldest
segment first, newest (head) last: push_back appends at the end,
pop_front removes the first element. delay is in milliseconds. -/
structure GameState where
  snake : List Segment
  delay : Nat
  apple : Nat × Nat
  head : Nat × Nat
  board : Nat × Nat
  direction : Direction
  snake_style : SnakeStyle
  apple_style : AppleStyle
  wall_wrap : Bool
  color : Bool
deriving DecidableEq

/-- GameState::new in src/main.rs. -/
def GameState.new : GameState where
  snake := [⟨0, 0, .EastWest, .East⟩, ⟨1, 0, .EastWest, .East⟩]
  delay := 250
  apple := (5, 5)
  head := (1, 0)
  board := (10, 10)
  direction := .East
  snake_style := .CurvedLine
  apple_style := .Filled
  wall_wrap := false
  color := true

/-- The list of cells occupied by the body, oldest first. -/
def GameState.cells (s : GameState) : List (Nat × Nat) :=
  s.snake.map Segment.pos

/-- One key-press event as matched by handle_input in src/main.rs.
up / down / left / right stand for k or Up, j or Down, h or Left,
l or Right. The quit key q exits the process and, like unrecognized
keys, performs no state mutation; both are folded into other. -/
inductive Key where
  | up
  | down
  | left
  | right
  | key1
  | key2
  | key3
  | key4
  | key5
  | key6
  | key7
  | key8
  | key9
  | key0
  | other
deriving DecidableEq

/-- The direction a directional key proposes, none for other keys
(used to state the reversal-guard properties). -/
def Key.proposed : Key → Option Direction
  | .up => some .North
  | .down => some .South
  | .left => some .West
  | .right => some .East
  | _ => none

/-- handle_input in src/main.rs, one key event. none models a Rust
panic: indexing snake[len - 1] on an empty deque, or a failed unwrap of
checked_sub / checked_add. Board coordinates are u16, so checked_sub 1
fails exactly at 0 and checked_add 1 fails exactly at 65535; the delay
checked_sub of 20 ms fails exactly when delay < 20 ms, while the delay
checked_add of 20 ms overflows only beyond u64 seconds, unreachable at
millisecond granularity, and is modelled total. Rendering has no effect
on the state and is omitted. -/
def handle_input (s : GameState) (k : Key) : Option GameState :=
  match k with
  | .up =>
    match s.snake.getLast? with
    | none => none
    | some t => some (if t.facing ≠ .South then { s with direction := .North } else s)
  | .down =>
    match s.snake.getLast? with
    | none => none
    | some t => some (if t.facing ≠ .North then { s with direction := .South } else s)
  | .left =>
    match s.snake.getLast? with
    | none => none
    | some t => some (if t.facing ≠ .East then { s with direction := .West } else s)
  | .right =>
    match s.snake.getLast? with
    | none => none
    | some t => some (if t.facing ≠ .West then { s with direction := .East } else s)
  | .key1 =>
    if s.board.1 = 0 then none else some { s with board := (s.board.1 - 1, s.board.2) }
  | .key2 =>
    if s.board.1 = 65535 then none else some { s with board := (s.board.1 + 1, s.board.2) }
  | .key3 =>
    if s.board.2 = 0 then none else some { s with board := (s.board.1, s.board.2 - 1) }
  | .key4 =>
    if s.board.2 = 65535 then none else some { s with board := (s.board.1, s.board.2 + 1) }
  | .key5 => some { s with delay := s.delay + 20 }
  | .key6 => if s.delay < 20 then none else some { s with delay := s.delay - 20 }
  | .key7 => some { s with snake_style := s.snake_style.next }
  | .key8 => some { s with apple_style := s.apple_style.next }
  | .key9 => some { s with wall_wrap := !s.wall_wrap }
  | .key0 => some { s with color := !s.color }
  | .other => some s

/-- rand gen_range over the half-open range 0..n, which panics (none)
when the range is empty. Modelled from the spec, which treats the random
food-placement generator as an external capability performing uniform
integer sampling in a half-open range: the sampled value is seed % n, an
arbitrary member of the range selected by a caller-supplied seed. -/
def genRange (seed n : Nat) : Option Nat :=
  if n = 0 then none else some (seed % n)

/-- The new-head computation at the top of the game loop in main
(src/main.rs): advance one cell in the current direction; wrap to the
opposite edge when wall_wrap is set; none models the break out of the
loop (death by wall). Subtractions are guarded in the source exactly as
here, so Nat subtraction agrees with u16 subtraction whenever the head
lies on the board. -/
def next_head (head board : Nat × Nat) (direction : Direction) (wall_wrap : Bool) :
    Option (Nat × Nat) :=
  match direction with
  | .North =>
    if head.2 > 0 then some (head.1, head.2 - 1)
    else if wall_wrap then some (head.1, board.2 - 1)
    else none
  | .South =>
    if head.2 + 1 < board.2 then some (head.1, head.2 + 1)
    else if wall_wrap then some (head.1, 0)
    else none
  | .West =>
    if head.1 > 0 then some (head.1 - 1, head.2)
    else if wall_wrap then some (board.1 - 1, head.2)
    else none
  | .East =>
    if head.1 + 1 < board.1 then some (head.1 + 1, head.2)
    else if wall_wrap then some (0, head.2)
    else none

/-- Outcome of one pass through the game loop. running carries the state
after a successful tick; dead carries the state after the loop breaks and
the post-loop death fix-up runs; stuck models a Rust panic. -/
inductive TickResult where
  | running (s : GameState)
  | dead (s : GameState)
  | stuck
deriving DecidableEq

/-- The post-loop death fix-up in main (src/main.rs): rewrite the shape
of the last (newest) segment from its stored facing and the current
direction, then render once more. stuck models the panics of indexing an
empty deque and of the from_next panic arms. -/
def deathFix (s : GameState) : TickResult :=
  match s.snake.getLast? with
  | none => .stuck
  | some t =>
    match SegmentType.from_next t.facing s.direction with
    | none => .stuck
    | some sh => .dead { s with snake := s.snake.dropLast ++ [{ t with shape := sh }] }

/-- One iteration of the game loop in main (src/main.rs), with the
post-loop death fix-up folded into the two break paths (wall collision
with wrap off, self-collision). rx and ry seed the two gen_range calls
that relocate the apple. Order as in the source: compute the candidate
head; break on self-collision with any existing segment; store the new
head; rewrite the last segment shape via from_next; build the new head
segment via from_dir; on eating relocate the apple and keep the tail,
otherwise pop the oldest segment; append the new head segment. -/
def tick (s : GameState) (rx ry : Nat) : TickResult :=
  match next_head s.head s.board s.direction s.wall_wrap with
  | none => deathFix s
  | some nh =>
    if s.snake.any (fun t => t.pos = nh) then deathFix s
    else
      match s.snake.getLast? with
      | none => .stuck
      | some t =>
        match SegmentType.from_next t.facing s.direction with
        | none => .stuck
        | some sh =>
          if nh = s.apple then
            match genRange rx s.board.1, genRange ry s.board.2 with
            | some ax, some ay =>
              .running { s with
                  head := nh,
                  apple := (ax, ay),
                  snake := (s.snake.dropLast ++ [{ t with shape := sh }]) ++
                    [⟨nh.1, nh.2, SegmentType.from_dir s.direction, s.direction⟩] }
            | _, _ => .stuck
          else
            .running { s with
                head := nh,
                snake := (s.snake.dropLast ++ [{ t with shape := sh }]).drop 1 ++
                  [⟨nh.1, nh.2, SegmentType.from_dir s.direction, s.direction⟩] }

/-- The states reachable from GameState.new by the sequential
interleaving of input events and simulation ticks, including the state
left behind by the death fix-up. -/
inductive Reachable : GameState → Prop where
  | init : Reachable GameState.new
  | input {s s' : GameState} (k : Key) :
      Reachable s → handle_input s k = some s' → Reachable s'
  | tick_running {s s' : GameState} (rx ry : Nat) :
      Reachable s → tick s rx ry = .running s' → Reachable s'
  | tick_dead {s s' : GameState} (rx ry : Nat) :
      Reachable s → tick s rx ry = .dead s' → Reachable s'

/-! ### Basic facts about directions and shapes -/

theorem Direction.opposite_opposite (d : Direction) : d.opposite.opposite = d := by
  cases d <;> rfl

theorem Direction.ne_opposite_self (d : Direction) : d ≠ d.opposite := by
  cases d <;> decide

theorem from_next_eq_none_iff (a b : Direction) :
    SegmentType.from_next a b = none ↔ b = a.opposite := by
  cases a <;> cases b <;> decide

/-- C8: for every non-opposite pair (p, n), from_next returns a shape:
the matching straight shape (NorthSouth for North or South, EastWest for
East or West) when p = n, and one of the four corner shapes when p and n
are perpendicular (p differs from n without being its opposite);
from_next is defined on exactly the 8 non-opposite of the 16 direction
pairs; and from_dir maps North and South to the vertical straight shape
and East and West to the horizontal one. -/
theorem from_next_shape_lookup :
    (∀ p n : Direction, n ≠ p.opposite →
      ∃ sh, SegmentType.from_next p n = some sh ∧
        (p = n →
          ((p = .North ∨ p = .South) → sh = .NorthSouth) ∧
          ((p = .East ∨ p = .West) → sh = .EastWest)) ∧
        (p ≠ n →
          (sh = .NorthEast ∨ sh = .NorthWest ∨ sh = .SouthEast ∨ sh = .SouthWest))) ∧
    (∀ p n : Direction, (SegmentType.from_next p n).isSome ↔ n ≠ p.opposite) ∧
    SegmentType.from_dir .North = .NorthSouth ∧
    SegmentType.from_dir .South = .NorthSouth ∧
    SegmentType.from_dir .East = .EastWest ∧
    SegmentType.from_dir .West = .EastWest := by
  refine ⟨?_, by decide, rfl, rfl, rfl, rfl⟩
  intro p n h
  cases p <;> cases n <;>
    first
      | exact absurd rfl h
      | exact ⟨_, rfl, by decide, by decide⟩

/-- Witness for from_next_shape_lookup at the perpendicular pair
(North, East). -/
theorem from_next_shape_lookup_w :
    ∃ sh, SegmentType.from_next .North .East = some sh ∧
      (Direction.North = Direction.East →
        ((Direction.North = .North ∨ Direction.North = .South) → sh = .NorthSouth) ∧
        ((Direction.North = .East ∨ Direction.North = .West) → sh = .EastWest)) ∧
      (Direction.North ≠ Direction.East →
        (sh = .NorthEast ∨ sh = .NorthWest ∨ sh = .SouthEast ∨ sh = .SouthWest)) :=
  from_next_shape_lookup.1 .North .East (by decide)

/-! ### The candidate-head computation against the wording of the spec -/

/-- Advancing one cell in a direction, as a signed offset on (column,
row); rows grow southwards. Spec side, used only to state the refinement
of next_head. -/
def Direction.delta : Direction → Int × Int
  | .North => (0, -1)
  | .South => (0, 1)
  | .West => (-1, 0)
  | .East => (1, 0)

/-- Modelled from the spec, refinement side of C5: advance one cell in
the direction; if the advance stays within [0, width) times [0, height)
the candidate is that cell; otherwise, with wrap enabled, the moved
coordinate lands on the opposite edge of the same axis (width - 1 or 0)
with the other coordinate unchanged; otherwise death (none). -/
def nextHeadSpec (head board : Nat × Nat) (d : Direction) (w : Bool) :
    Option (Nat × Nat) :=
  let tx : Int := (head.1 : Int) + d.delta.1
  let ty : Int := (head.2 : Int) + d.delta.2
  if 0 ≤ tx ∧ tx < (board.1 : Int) ∧ 0 ≤ ty ∧ ty < (board.2 : Int) then
    some (tx.toNat, ty.toNat)
  else if w then
    some (if tx < 0 then board.1 - 1 else if (board.1 : Int) ≤ tx then 0 else tx.toNat,
          if ty < 0 then board.2 - 1 else if (board.2 : Int) ≤ ty then 0 else ty.toNat)
  else none

/-- C5: for a head on the board, the candidate-head computation of the
game loop agrees with the spec wording (in-bounds advance, wrap to the
opposite edge, death otherwise), and on a 3 by 3 board with wrap enabled
a head at (2, 1) moving East yields (0, 1). -/
theorem next_head_matches_spec (head board : Nat × Nat) (d : Direction) (w : Bool)
    (hx : head.1 < board.1) (hy : head.2 < board.2) :
    next_head head board d w = nextHeadSpec head board d w ∧
    next_head (2, 1) (3, 3) .East true = some (0, 1) := by
  obtain ⟨x, y⟩ := head
  obtain ⟨bx, by'⟩ := board
  simp only at hx hy
  refine ⟨?_, by decide⟩
  cases d <;>
    simp only [next_head, nextHeadSpec, Direction.delta] <;>
    split_ifs <;>
    first
      | rfl
      | (simp only [Option.some.injEq, Prod.mk.injEq]; omega)
      | (exfalso; omega)

/-- Witness for next_head_matches_spec at the initial head and board. -/
theorem next_head_matches_spec_w :
    next_head (1, 0) (10, 10) .East false = nextHeadSpec (1, 0) (10, 10) .East false ∧
    next_head (2, 1) (3, 3) .East true = some (0, 1) :=
  next_head_matches_spec (1, 0) (10, 10) .East false (by decide) (by decide)

/-! ### Inversion of one game-loop iteration -/

theorem deathFix_ne_running (s s' : GameState) : deathFix s ≠ .running s' := by
  rcases hl : s.snake.getLast? with _ | t
  · simp [deathFix, hl]
  · rcases hf : SegmentType.from_next t.facing s.direction with _ | sh <;>
      simp [deathFix, hl, hf]

theorem deathFix_dead {s s' : GameState} (h : deathFix s = .dead s') :
    ∃ t sh, s.snake.getLast? = some t ∧
      SegmentType.from_next t.facing s.direction = some sh ∧
      s' = { s with snake := s.snake.dropLast ++ [{ t with shape := sh }] } := by
  rcases hl : s.snake.getLast? with _ | t
  · simp [deathFix, hl] at h
  rcases hf : SegmentType.from_next t.facing s.direction with _ | sh
  · simp [deathFix, hl, hf] at h
  simp only [deathFix, hl, hf] at h
  injection h with h
  exact ⟨t, sh, rfl, hf, h.symm⟩

theorem tick_dead_eq {s s' : GameState} {rx ry : Nat} (h : tick s rx ry = .dead s') :
    deathFix s = .dead s' := by
  rcases hnh : next_head s.head s.board s.direction s.wall_wrap with _ | nh <;>
    simp only [tick, hnh] at h
  · exact h
  by_cases hcol : s.snake.any (fun u => u.pos = nh) = true
  · rw [if_pos hcol] at h
    exact h
  rw [if_neg hcol] at h
  exfalso
  rcases hl : s.snake.getLast? with _ | t
  · simp [hl] at h
  rcases hf : SegmentType.from_next t.facing s.direction with _ | sh
  · simp [hl, hf] at h
  simp only [hl, hf] at h
  by_cases ha : nh = s.apple
  · rw [if_pos ha] at h
    rcases hgx : genRange rx s.board.1 with _ | ax <;>
      rcases hgy : genRange ry s.board.2 with _ | ay <;>
      simp [hgx, hgy] at h
  · rw [if_neg ha] at h
    simp at h

theorem tick_running_eq {s s' : GameState} {rx ry : Nat}
    (h : tick s rx ry = .running s') :
    ∃ nh t sh, next_head s.head s.board s.direction s.wall_wrap = some nh ∧
      s.snake.any (fun u => u.pos = nh) = false ∧
      s.snake.getLast? = some t ∧
      SegmentType.from_next t.facing s.direction = some sh ∧
      ((nh = s.apple ∧ s.board.1 ≠ 0 ∧ s.board.2 ≠ 0 ∧
          s' = { s with
              head := nh,
              apple := (rx % s.board.1, ry % s.board.2),
              snake := (s.snake.dropLast ++ [{ t with shape := sh }]) ++
                [⟨nh.1, nh.2, SegmentType.from_dir s.direction, s.direction⟩] }) ∨
       (nh ≠ s.apple ∧
          s' = { s with
              head := nh,
              snake := (s.snake.dropLast ++ [{ t with shape := sh }]).drop 1 ++
                [⟨nh.1, nh.2, SegmentType.from_dir s.direction, s.direction⟩] })) := by
  rcases hnh : next_head s.head s.board s.direction s.wall_wrap with _ | nh <;>
    simp only [tick, hnh] at h
  · exact absurd h (deathFix_ne_running s s')
  by_cases hcol : s.snake.any (fun u => u.pos = nh) = true
  · rw [if_pos hcol] at h
    exact absurd h (deathFix_ne_running s s')
  rw [if_neg hcol] at h
  rcases hl : s.snake.getLast? with _ | t
  · simp [hl] at h
  rcases hf : SegmentType.from_next t.facing s.direction with _ | sh
  · simp [hl, hf] at h
  simp only [hl, hf] at h
  refine ⟨nh, t, sh, rfl, by simpa using hcol, rfl, hf, ?_⟩
  by_cases ha : nh = s.apple
  · rw [if_pos ha] at h
    rcases hgx : genRange rx s.board.1 with _ | ax
    · simp [hgx] at h
    rcases hgy : genRange ry s.board.2 with _ | ay
    · simp [hgx, hgy] at h
    simp only [hgx, hgy] at h
    injection h with h
    unfold genRange at hgx hgy
    by_cases h1 : s.board.1 = 0
    · rw [if_pos h1] at hgx
      cases hgx
    by_cases h2 : s.board.2 = 0
    · rw [if_pos h2] at hgy
      cases hgy
    rw [if_neg h1] at hgx
    rw [if_neg h2] at hgy
    injection hgx with hgx
    injection hgy with hgy
    subst hgx
    subst hgy
    exact .inl ⟨ha, h1, h2, h.symm⟩
  · rw [if_neg ha] at h
    injection h with h
    exact .inr ⟨ha, h.symm⟩

/-- Frame of a fatal tick: everything except the last segment shape is
unchanged (helper shared by several results below). -/
theorem tick_dead_frame_aux {s s' : GameState} {rx ry : Nat}
    (h : tick s rx ry = .dead s') :
    s'.cells = s.cells ∧ s'.snake.length = s.snake.length ∧
    s'.head = s.head ∧ s'.apple = s.apple ∧ s'.board = s.board ∧
    s'.direction = s.direction ∧ s'.delay = s.delay ∧
    s'.wall_wrap = s.wall_wrap ∧
    ∃ t sh, s.snake.getLast? = some t ∧
      SegmentType.from_next t.facing s.direction = some sh ∧
      s'.snake = s.snake.dropLast ++ [{ t with shape := sh }] := by
  obtain ⟨t, sh, hl, hf, rfl⟩ := deathFix_dead (tick_dead_eq h)
  obtain ⟨l2, hsnake⟩ := List.getLast?_eq_some_iff.1 hl
  refine ⟨?_, ?_, rfl, rfl, rfl, rfl, rfl, rfl, t, sh, hl, hf, rfl⟩
  · simp [GameState.cells, hsnake, List.dropLast_concat, Segment.pos]
  · simp [hsnake, List.dropLast_concat]

/-- C6: a tick that transitions to Dead (wall collision with wrap
disabled, or self-collision) leaves the segment cells, body length,
stored head, apple, board, direction, delay and wrap flag unchanged; the
only mutation rewrites the shape of the last segment to
shape_from_transition of that segment's stored facing and the current
direction, and no food or growth logic runs. -/
theorem dead_tick_frame {s s' : GameState} {rx ry : Nat}
    (h : tick s rx ry = .dead s') :
    s'.cells = s.cells ∧ s'.snake.length = s.snake.length ∧
    s'.head = s.head ∧ s'.apple = s.apple ∧ s'.board = s.board ∧
    s'.direction = s.direction ∧ s'.delay = s.delay ∧
    s'.wall_wrap = s.wall_wrap ∧
    ∃ t sh, s.snake.getLast? = some t ∧
      SegmentType.from_next t.facing s.direction = some sh ∧
      s'.snake = s.snake.dropLast ++ [{ t with shape := sh }] :=
  tick_dead_frame_aux h

/-- Witness state for the dead-tick frame: the initial state steered
North dies on the top wall at the next tick. -/
def wallDeathState : GameState := { GameState.new with direction := .North }

/-- The state wallDeathState leaves behind after its fatal tick. -/
def wallDeathResult : GameState :=
  { wallDeathState with snake := [⟨0, 0, .EastWest, .East⟩, ⟨1, 0, .NorthWest, .East⟩] }

/-- Witness for dead_tick_frame at wallDeathState. -/
theorem dead_tick_frame_w :
    wallDeathResult.cells = wallDeathState.cells ∧
    wallDeathResult.snake.length = wallDeathState.snake.length ∧
    wallDeathResult.head = wallDeathState.head ∧
    wallDeathResult.apple = wallDeathState.apple ∧
    wallDeathResult.board = wallDeathState.board ∧
    wallDeathResult.direction = wallDeathState.direction ∧
    wallDeathResult.delay = wallDeathState.delay ∧
    wallDeathResult.wall_wrap = wallDeathState.wall_wrap ∧
    ∃ t sh, wallDeathState.snake.getLast? = some t ∧
      SegmentType.from_next t.facing wallDeathState.direction = some sh ∧
      wallDeathResult.snake = wallDeathState.snake.dropLast ++ [{ t with shape := sh }] :=
  @dead_tick_frame wallDeathState wallDeathResult 0 0 (by decide)

/-! ### The inductive invariant of reachable states -/

theorem ne_opposite_symm {t d : Direction} (h : t ≠ d.opposite) : d ≠ t.opposite := by
  revert h
  cases t <;> cases d <;> decide

/-- The inductive invariant of the shared state: at least two segments,
pairwise distinct occupied cells, and the cached head field is the cell
of the last (newest) segment, whose stored facing is never the opposite
of the stored direction. -/
def StateInv (s : GameState) : Prop :=
  2 ≤ s.snake.length ∧ s.cells.Nodup ∧
  ∃ t, s.snake.getLast? = some t ∧ s.head = t.pos ∧ s.direction ≠ t.facing.opposite

theorem inv_new : StateInv GameState.new :=
  ⟨by decide, by decide, ⟨1, 0, .EastWest, .East⟩, by decide, by decide, by decide⟩

theorem handle_input_inv {s s' : GameState} {k : Key}
    (h : handle_input s k = some s') (hs : StateInv s) : StateInv s' := by
  obtain ⟨hlen, hnd, t, hl, hh, hd⟩ := hs
  cases k
  case up =>
    simp only [handle_input, hl] at h
    injection h with h
    by_cases hfc : t.facing = .South
    · rw [if_neg (not_not_intro hfc)] at h
      subst h
      exact ⟨hlen, hnd, t, hl, hh, hd⟩
    · rw [if_pos hfc] at h
      subst h
      exact ⟨hlen, hnd, t, hl, hh, ne_opposite_symm hfc⟩
  case down =>
    simp only [handle_input, hl] at h
    injection h with h
    by_cases hfc : t.facing = .North
    · rw [if_neg (not_not_intro hfc)] at h
      subst h
      exact ⟨hlen, hnd, t, hl, hh, hd⟩
    · rw [if_pos hfc] at h
      subst h
      exact ⟨hlen, hnd, t, hl, hh, ne_opposite_symm hfc⟩
  case left =>
    simp only [handle_input, hl] at h
    injection h with h
    by_cases hfc : t.facing = .East
    · rw [if_neg (not_not_intro hfc)] at h
      subst h
      exact ⟨hlen, hnd, t, hl, hh, hd⟩
    · rw [if_pos hfc] at h
      subst h
      exact ⟨hlen, hnd, t, hl, hh, ne_opposite_symm hfc⟩
  case right =>
    simp only [handle_input, hl] at h
    injection h with h
    by_cases hfc : t.facing = .West
    · rw [if_neg (not_not_intro hfc)] at h
      subst h
      exact ⟨hlen, hnd, t, hl, hh, hd⟩
    · rw [if_pos hfc] at h
      subst h
      exact ⟨hlen, hnd, t, hl, hh, ne_opposite_symm hfc⟩
  case key1 =>
    simp only [handle_input] at h
    by_cases h0 : s.board.1 = 0
    · rw [if_pos h0] at h
      cases h
    · rw [if_neg h0] at h
      injection h with h
      subst h
      exact ⟨hlen, hnd, t, hl, hh, hd⟩
  case key2 =>
    simp only [handle_input] at h
    by_cases h0 : s.board.1 = 65535
    · rw [if_pos h0] at h
      cases h
    · rw [if_neg h0] at h
      injection h with h
      subst h
      exact ⟨hlen, hnd, t, hl, hh, hd⟩
  case key3 =>
    simp only [handle_input] at h
    by_cases h0 : s.board.2 = 0
    · rw [if_pos h0] at h
      cases h
    · rw [if_neg h0] at h
      injection h with h
      subst h
      exact ⟨hlen, hnd, t, hl, hh, hd⟩
  case key4 =>
    simp only [handle_input] at h
    by_cases h0 : s.board.2 = 65535
    · rw [if_pos h0] at h
      cases h
    · rw [if_neg h0] at h
      injection h with h
      subst h
      exact ⟨hlen, hnd, t, hl, hh, hd⟩
  case key5 =>
    injection h with h
    subst h
    exact ⟨hlen, hnd, t, hl, hh, hd⟩
  case key6 =>
    simp only [handle_input] at h
    by_cases h0 : s.delay < 20
    · rw [if_pos h0] at h
      cases h
    · rw [if_neg h0] at h
      injection h with h
      subst h
      exact ⟨hlen, hnd, t, hl, hh, hd⟩
  case key7 =>
    injection h with h
    subst h
    exact ⟨hlen, hnd, t, hl, hh, hd⟩
  case key8 =>
    injection h with h
    subst h
    exact ⟨hlen, hnd, t, hl, hh, hd⟩
  case key9 =>
    injection h with h
    subst h
    exact ⟨hlen, hnd, t, hl, hh, hd⟩
  case key0 =>
    injection h with h
    subst h
    exact ⟨hlen, hnd, t, hl, hh, hd⟩
  case other =>
    injection h with h
    subst h
    exact ⟨hlen, hnd, t, hl, hh, hd⟩

theorem nodup_append_singleton {l : List (Nat × Nat)} {a : Nat × Nat}
    (h1 : l.Nodup) (h2 : a ∉ l) : (l ++ [a]).Nodup := by
  rw [List.nodup_append]
  exact ⟨h1, List.nodup_singleton a, by simpa using h2⟩

theorem tick_running_inv {s s' : GameState} {rx ry : Nat}
    (h : tick s rx ry = .running s') (hs : StateInv s) : StateInv s' := by
  obtain ⟨hlen, hnd, t0, hl0, hh0, hd0⟩ := hs
  obtain ⟨nh, t, sh, hnh, hcol, hl, hf, hcase⟩ := tick_running_eq h
  obtain ⟨l2, hsnake⟩ := List.getLast?_eq_some_iff.1 hl
  have hnotmem : nh ∉ s.cells := by
    intro hm
    rw [GameState.cells, List.mem_map] at hm
    obtain ⟨u, hu, hup⟩ := hm
    have hany : s.snake.any (fun u => u.pos = nh) = true := by
      rw [List.any_eq_true]
      exact ⟨u, hu, by simp [hup]⟩
    rw [hany] at hcol
    cases hcol
  have hc1 : (s.snake.dropLast ++ [{ t with shape := sh }]).map Segment.pos = s.cells := by
    rw [GameState.cells, hsnake, List.dropLast_concat]
    simp [Segment.pos]
  have hclen : s.cells.length = s.snake.length := by
    rw [GameState.cells, List.length_map]
  rcases hcase with ⟨ha, h1, h2, rfl⟩ | ⟨ha, rfl⟩ <;>
    refine ⟨?_, ?_, ?_⟩
  · have := congrArg List.length hc1
    simp only [List.length_map, List.length_append, List.length_cons, List.length_nil] at this ⊢
    omega
  · show (((s.snake.dropLast ++ [{ t with shape := sh }]) ++
        [(⟨nh.1, nh.2, SegmentType.from_dir s.direction, s.direction⟩ : Segment)]).map
        Segment.pos).Nodup
    rw [List.map_append, hc1, List.map_cons, List.map_nil]
    exact nodup_append_singleton hnd hnotmem
  · exact ⟨⟨nh.1, nh.2, SegmentType.from_dir s.direction, s.direction⟩,
      List.getLast?_concat _, rfl, Direction.ne_opposite_self s.direction⟩
  · have := congrArg List.length hc1
    simp only [List.length_map, List.length_append, List.length_cons, List.length_nil,
      List.length_drop] at this ⊢
    omega
  · simp only [GameState.cells]
    rw [List.map_append, List.map_drop, hc1, List.map_cons, List.map_nil]
    refine nodup_append_singleton (List.Nodup.sublist (List.drop_sublist 1 s.cells) hnd) ?_
    intro hm
    exact hnotmem (List.mem_of_mem_drop hm)
  · exact ⟨⟨nh.1, nh.2, SegmentType.from_dir s.direction, s.direction⟩,
      List.getLast?_concat _, rfl, Direction.ne_opposite_self s.direction⟩

theorem tick_dead_inv {s s' : GameState} {rx ry : Nat}
    (h : tick s rx ry = .dead s') (hs : StateInv s) : StateInv s' := by
  obtain ⟨hlen, hnd, t0, hl0, hh0, hd0⟩ := hs
  obtain ⟨hcells, hlength, hhead, _, _, hdir, _, _, t, sh, hl, hf, hsnake'⟩ :=
    tick_dead_frame_aux h
  have ht0 : t0 = t := by
    rw [hl0] at hl
    exact Option.some.inj hl
  subst ht0
  refine ⟨by rw [hlength]; exact hlen, by rw [hcells]; exact hnd,
    { t0 with shape := sh }, ?_, ?_, ?_⟩
  · rw [hsnake']
    exact List.getLast?_concat _
  · rw [hhead]
    exact hh0
  · rw [hdir]
    exact hd0

/-- Every reachable state satisfies the inductive invariant. -/
theorem reachable_inv {s : GameState} (h : Reachable s) : StateInv s := by
  induction h with
  | init => exact inv_new
  | input k _ he ih => exact handle_input_inv he ih
  | tick_running rx ry _ he ih => exact tick_running_inv he ih
  | tick_dead rx ry _ he ih => exact tick_dead_inv he ih

/-! ### Claim theorems over reachable states -/

/-- C2: in every state reachable by ticks and input events, the stored
direction is never the exact opposite of the facing of the last (newest)
body segment; hence from_next, which both the tick shape fix-up and the
death fix-up call on exactly that pair, never hits a panic arm. -/
theorem direction_never_reverses_head {s : GameState} (h : Reachable s) :
    ∃ t, s.snake.getLast? = some t ∧ s.direction ≠ t.facing.opposite ∧
      (SegmentType.from_next t.facing s.direction).isSome := by
  obtain ⟨-, -, t, hl, -, hd⟩ := reachable_inv h
  refine ⟨t, hl, hd, ?_⟩
  rcases hfn : SegmentType.from_next t.facing s.direction with _ | sh
  · exact absurd ((from_next_eq_none_iff t.facing s.direction).1 hfn) hd
  · rfl

/-- Witness for direction_never_reverses_head at the initial state. -/
theorem direction_never_reverses_head_w :
    ∃ t, GameState.new.snake.getLast? = some t ∧
      GameState.new.direction ≠ t.facing.opposite ∧
      (SegmentType.from_next t.facing GameState.new.direction).isSome :=
  direction_never_reverses_head Reachable.init

/-- C9: every reachable state has at least two body segments and
pairwise distinct occupied cells. -/
theorem body_length_and_distinct {s : GameState} (h : Reachable s) :
    2 ≤ s.snake.length ∧ s.cells.Nodup :=
  ⟨(reachable_inv h).1, (reachable_inv h).2.1⟩

/-- Witness for body_length_and_distinct at the initial state. -/
theorem body_length_and_distinct_w :
    2 ≤ GameState.new.snake.length ∧ GameState.new.cells.Nodup :=
  body_length_and_distinct Reachable.init

theorem handle_input_frame {s s' : GameState} {k : Key}
    (h : handle_input s k = some s') :
    s'.snake = s.snake ∧ s'.head = s.head ∧ s'.apple = s.apple := by
  cases k <;> simp only [handle_input] at h <;> (repeat split at h) <;>
    first
      | exact Option.noConfusion h
      | (injection h with h; subst h; refine ⟨?_, ?_, ?_⟩ <;> (try split) <;> rfl)

/-- C10: in every reachable state the stored head cell equals the cell
of the last (newest) body segment; moreover no input action modifies the
head field or the body segments, and the ticks preserve the equation. -/
theorem head_is_last_segment {s : GameState} (h : Reachable s) :
    (∃ t, s.snake.getLast? = some t ∧ s.head = t.pos) ∧
    ∀ (k : Key) (s' : GameState), handle_input s k = some s' →
      s'.head = s.head ∧ s'.snake = s.snake := by
  obtain ⟨-, -, t, hl, hh, -⟩ := reachable_inv h
  exact ⟨⟨t, hl, hh⟩, fun k s' hk =>
    ⟨(handle_input_frame hk).2.1, (handle_input_frame hk).1⟩⟩

/-- Witness for head_is_last_segment at the initial state. -/
theorem head_is_last_segment_w :
    (∃ t, GameState.new.snake.getLast? = some t ∧ GameState.new.head = t.pos) ∧
    ∀ (k : Key) (s' : GameState), handle_input GameState.new k = some s' →
      s'.head = GameState.new.head ∧ s'.snake = GameState.new.snake :=
  head_is_last_segment Reachable.init

theorem cells_fixup {s : GameState} {t : Segment} (sh : SegmentType)
    (hl : s.snake.getLast? = some t) :
    (s.snake.dropLast ++ [{ t with shape := sh }]).map Segment.pos =
      s.snake.map Segment.pos := by
  obtain ⟨l2, hsnake⟩ := List.getLast?_eq_some_iff.1 hl
  rw [hsnake, List.dropLast_concat]
  simp [Segment.pos]

/-- C3: on a tick whose candidate head cell is in bounds or wrapped, the
simulation transitions to Dead exactly when the candidate equals the
cell of some existing segment — any segment, the current tail included —
and in that case the candidate is not consumed: the occupied cells and
the body length are unchanged. -/
theorem self_collision_dead_iff {s : GameState} (hr : Reachable s)
    (nh : Nat × Nat) (rx ry : Nat)
    (hnh : next_head s.head s.board s.direction s.wall_wrap = some nh) :
    ((∃ s', tick s rx ry = .dead s') ↔ ∃ u ∈ s.snake, u.pos = nh) ∧
    (∀ s', tick s rx ry = .dead s' →
      s'.cells = s.cells ∧ s'.snake.length = s.snake.length) := by
  obtain ⟨hlen, hnd, t, hl, hh, hd⟩ := reachable_inv hr
  obtain ⟨sh, hf⟩ : ∃ sh, SegmentType.from_next t.facing s.direction = some sh := by
    rcases hfn : SegmentType.from_next t.facing s.direction with _ | sh
    · exact absurd ((from_next_eq_none_iff t.facing s.direction).1 hfn) hd
    · exact ⟨sh, rfl⟩
  refine ⟨⟨?_, ?_⟩, fun s' hdead =>
    ⟨(tick_dead_frame_aux hdead).1, (tick_dead_frame_aux hdead).2.1⟩⟩
  · rintro ⟨s', hs'⟩
    by_contra hno
    have hcol : s.snake.any (fun u => u.pos = nh) = false := by
      rw [Bool.eq_false_iff]
      intro hany
      rw [List.any_eq_true] at hany
      obtain ⟨u, hu, hup⟩ := hany
      exact hno ⟨u, hu, of_decide_eq_true hup⟩
    simp only [tick, hnh] at hs'
    rw [if_neg (by simp [hcol])] at hs'
    simp only [hl, hf] at hs'
    by_cases ha : nh = s.apple
    · rw [if_pos ha] at hs'
      rcases hgx : genRange rx s.board.1 with _ | ax <;>
        rcases hgy : genRange ry s.board.2 with _ | ay <;>
        simp [hgx, hgy] at hs'
    · rw [if_neg ha] at hs'
      simp at hs'
  · rintro ⟨u, hu, hup⟩
    have hany : s.snake.any (fun u => u.pos = nh) = true :=
      List.any_eq_true.2 ⟨u, hu, decide_eq_true hup⟩
    refine ⟨{ s with snake := s.snake.dropLast ++ [{ t with shape := sh }] }, ?_⟩
    simp only [tick, hnh]
    rw [if_pos hany]
    simp only [deathFix, hl, hf]

/-- Witness for self_collision_dead_iff: the initial state moving East
to (2, 0), which collides with no segment (both sides of the iff are
false, and there is no dead outcome). -/
theorem self_collision_dead_iff_w :
    ((∃ s', tick GameState.new 0 0 = .dead s') ↔
      ∃ u ∈ GameState.new.snake, u.pos = (2, 0)) ∧
    (∀ s', tick GameState.new 0 0 = .dead s' →
      s'.cells = GameState.new.cells ∧
      s'.snake.length = GameState.new.snake.length) :=
  self_collision_dead_iff Reachable.init (2, 0) 0 0 (by decide)

/-- C4: after a successful (non-Dead) tick whose candidate head equals
the apple cell, the body length grows by exactly one and the apple is
relocated into [0, width) times [0, height); after a successful tick
whose candidate differs from the apple, the length and the apple are
unchanged and the occupied cells are the old ones with the oldest cell
removed and the new head cell appended, all other cells unchanged. -/
theorem growth_invariant {s s' : GameState} {nh : Nat × Nat} {rx ry : Nat}
    (hnh : next_head s.head s.board s.direction s.wall_wrap = some nh)
    (ht : tick s rx ry = .running s') :
    (nh = s.apple →
      s'.snake.length = s.snake.length + 1 ∧
      s'.apple.1 < s.board.1 ∧ s'.apple.2 < s.board.2 ∧
      s'.cells = s.cells ++ [nh]) ∧
    (nh ≠ s.apple →
      s'.snake.length = s.snake.length ∧ s'.apple = s.apple ∧
      s'.cells = s.cells.drop 1 ++ [nh]) := by
  obtain ⟨nh2, t, sh, hnh2, hcol, hl, hf, hcase⟩ := tick_running_eq ht
  have hnheq : nh2 = nh := Option.some.inj (hnh2.symm.trans hnh)
  subst hnheq
  have hc1 := cells_fixup sh hl
  have hxlen := congrArg List.length hc1
  simp only [List.length_map, List.length_append, List.length_cons,
    List.length_nil] at hxlen
  rcases hcase with ⟨ha, h1, h2, rfl⟩ | ⟨ha, rfl⟩
  · refine ⟨fun _ => ⟨?_, ?_, ?_, ?_⟩, fun hne => absurd ha hne⟩
    · simp only [List.length_append, List.length_cons, List.length_nil]
      omega
    · exact Nat.mod_lt rx (Nat.pos_of_ne_zero h1)
    · exact Nat.mod_lt ry (Nat.pos_of_ne_zero h2)
    · simp only [GameState.cells]
      rw [List.map_append, hc1, List.map_cons, List.map_nil]
      rfl
  · refine ⟨fun heq => absurd heq ha, fun _ => ⟨?_, rfl, ?_⟩⟩
    · simp only [List.length_append, List.length_cons, List.length_nil,
        List.length_drop]
      omega
    · simp only [GameState.cells]
      rw [List.map_append, List.map_drop, hc1, List.map_cons, List.map_nil]
      rfl

/-- The state the initial state reaches after one (non-eating) tick. -/
def tickOneResult : GameState :=
  { GameState.new with
      head := (2, 0),
      snake := [⟨1, 0, .EastWest, .East⟩, ⟨2, 0, .EastWest, .East⟩] }

/-- Witness for growth_invariant: the first tick from the initial state,
candidate (2, 0), which misses the apple at (5, 5). -/
theorem growth_invariant_w :
    ((2, 0) = GameState.new.apple →
      tickOneResult.snake.length = GameState.new.snake.length + 1 ∧
      tickOneResult.apple.1 < GameState.new.board.1 ∧
      tickOneResult.apple.2 < GameState.new.board.2 ∧
      tickOneResult.cells = GameState.new.cells ++ [(2, 0)]) ∧
    ((2, 0) ≠ GameState.new.apple →
      tickOneResult.snake.length = GameState.new.snake.length ∧
      tickOneResult.apple = GameState.new.apple ∧
      tickOneResult.cells = GameState.new.cells.drop 1 ++ [(2, 0)]) :=
  @growth_invariant GameState.new tickOneResult (2, 0) 0 0 (by decide) (by decide)

/-! ### The reversal guard and the configuration keys -/

/-- A reachable state whose oldest (tail) segment faces West while the
newest (head) segment faces North: reached from the start by steering
South, tick, West, tick, North, tick. -/
def cexC1 : GameState :=
  { GameState.new with
      direction := .North,
      head := (0, 0),
      snake := [⟨0, 1, .NorthEast, .West⟩, ⟨0, 0, .NorthSouth, .North⟩] }

theorem cexC1_reachable : Reachable cexC1 := by
  have h1 : Reachable { GameState.new with direction := .South } :=
    Reachable.input .down Reachable.init (by decide)
  have h2 : Reachable { GameState.new with
      direction := .South,
      head := (1, 1),
      snake := [⟨1, 0, .SouthWest, .East⟩, ⟨1, 1, .NorthSouth, .South⟩] } :=
    Reachable.tick_running 0 0 h1 (by decide)
  have h3 : Reachable { GameState.new with
      direction := .West,
      head := (1, 1),
      snake := [⟨1, 0, .SouthWest, .East⟩, ⟨1, 1, .NorthSouth, .South⟩] } :=
    Reachable.input .left h2 (by decide)
  have h4 : Reachable { GameState.new with
      direction := .West,
      head := (0, 1),
      snake := [⟨1, 1, .NorthWest, .South⟩, ⟨0, 1, .EastWest, .West⟩] } :=
    Reachable.tick_running 0 0 h3 (by decide)
  have h5 : Reachable { GameState.new with
      direction := .North,
      head := (0, 1),
      snake := [⟨1, 1, .NorthWest, .South⟩, ⟨0, 1, .EastWest, .West⟩] } :=
    Reachable.input .up h4 (by decide)
  exact Reachable.tick_running 0 0 h5 (by decide)

/-- Counterexample to C1: in the reachable state cexC1 the oldest
segment (the tail) faces West, so the proposed direction East of the
right key is its exact opposite and C1 demands a rejection; yet the
handler accepts it and stores East — the guard compares against the
newest (last) segment, which faces North, not against the tail. -/
theorem reversal_guard_cex :
    Reachable cexC1 ∧
    cexC1.snake.head?.map Segment.facing = some Direction.West ∧
    Direction.West.opposite = Direction.East ∧
    handle_input cexC1 .right = some { cexC1 with direction := .East } ∧
    Direction.East ≠ cexC1.direction :=
  ⟨cexC1_reachable, by decide, rfl, by decide, by decide⟩

/-- C1 (amended): for every game state with a nonempty body and every
directional key, the proposed direction is rejected (stored direction
unchanged) iff it is the exact opposite of the facing of the LAST
(newest) segment of the body — the head — and stored otherwise. -/
theorem reversal_guard_last_segment {s : GameState} {k : Key} {d : Direction}
    {t : Segment} (hk : k.proposed = some d) (hl : s.snake.getLast? = some t) :
    handle_input s k =
      some (if t.facing = d.opposite then s else { s with direction := d }) := by
  cases k <;> simp only [Key.proposed] at hk <;>
    first
      | exact Option.noConfusion hk
      | (injection hk with hk; subst hk;
         simp only [handle_input, hl, Direction.opposite];
         split_ifs <;> simp_all)

/-- Witness for reversal_guard_last_segment: the up key at the initial
state, whose head segment faces East, so North is stored. -/
theorem reversal_guard_last_segment_w :
    handle_input GameState.new .up =
      some (if (⟨1, 0, SegmentType.EastWest, Direction.East⟩ : Segment).facing =
          Direction.North.opposite
        then GameState.new
        else { GameState.new with direction := Direction.North }) :=
  reversal_guard_last_segment rfl (by decide)

/-- A state with board width 1 and tick delay 30 ms, refuting C7. -/
def cexC7 : GameState := { GameState.new with board := (1, 10), delay := 30 }

/-- Counterexample to C7: decrementing the width from its claimed
minimum 1 succeeds and yields width 0 (u16 checked_sub fails only at 0),
and decreasing the delay from 30 ms succeeds and yields 10 ms, strictly
below the 20 ms step (Duration checked_sub fails only below 20 ms); in
neither case does the program abort. -/
theorem config_decrement_cex :
    handle_input cexC7 .key1 = some { cexC7 with board := (0, 10) } ∧
    handle_input cexC7 .key6 = some { cexC7 with delay := 10 } ∧
    (10 : Nat) < 20 := by
  refine ⟨by decide, by decide, by decide⟩

/-- C7 (amended): the width and height decrement keys change the
dimension by exactly 1 and abort exactly when the dimension is already
0; the speed keys change the delay by exactly 20 ms, the increase always
succeeding and the decrease aborting exactly when the delay is below
20 ms. Dimensions and the delay can therefore reach 0; the fatal cases
are the decrement at 0 and the delay decrease below 20. -/
theorem config_decrement_amended (s : GameState) :
    ((handle_input s .key1).isSome ↔ s.board.1 ≠ 0) ∧
    (∀ s', handle_input s .key1 = some s' →
      s'.board.1 + 1 = s.board.1 ∧ s'.board.2 = s.board.2) ∧
    ((handle_input s .key3).isSome ↔ s.board.2 ≠ 0) ∧
    (∀ s', handle_input s .key3 = some s' →
      s'.board.2 + 1 = s.board.2 ∧ s'.board.1 = s.board.1) ∧
    ((handle_input s .key6).isSome ↔ 20 ≤ s.delay) ∧
    (∀ s', handle_input s .key6 = some s' → s'.delay + 20 = s.delay) ∧
    (∀ s', handle_input s .key5 = some s' → s'.delay = s.delay + 20) := by
  simp only [handle_input]
  refine ⟨?_, ?_, ?_, ?_, ?_, ?_, ?_⟩
  · split_ifs with h0 <;> simp [h0]
  · intro s' h
    split_ifs at h with h0
    injection h with h
    subst h
    refine ⟨?_, rfl⟩
    show s.board.1 - 1 + 1 = s.board.1
    omega
  · split_ifs with h0 <;> simp [h0]
  · intro s' h
    split_ifs at h with h0
    injection h with h
    subst h
    refine ⟨?_, rfl⟩
    show s.board.2 - 1 + 1 = s.board.2
    omega
  · split_ifs with h0 <;> simp <;> omega
  · intro s' h
    split_ifs at h with h0
    injection h with h
    subst h
    show s.delay - 20 + 20 = s.delay
    omega
  · intro s' h
    injection h with h
    subst h
    rfl

/-- Witness for config_decrement_amended at the initial state. -/
theorem config_decrement_amended_w :
    ((handle_input GameState.new .key1).isSome ↔ GameState.new.board.1 ≠ 0) ∧
    (∀ s', handle_input GameState.new .key1 = some s' →
      s'.board.1 + 1 = GameState.new.board.1 ∧ s'.board.2 = GameState.new.board.2) ∧
    ((handle_input GameState.new .key3).isSome ↔ GameState.new.board.2 ≠ 0) ∧
    (∀ s', handle_input GameState.new .key3 = some s' →
      s'.board.2 + 1 = GameState.new.board.2 ∧ s'.board.1 = GameState.new.board.1) ∧
    ((handle_input GameState.new .key6).isSome ↔ 20 ≤ GameState.new.delay) ∧
    (∀ s', handle_input GameState.new .key6 = some s' →
      s'.delay + 20 = GameState.new.delay) ∧
    (∀ s', handle_input GameState.new .key5 = some s' →
      s'.delay = GameState.new.delay + 20) :=
  config_decrement_amended GameState.new
